import Mathlib

/-!
Verification development for a C++ open-addressing hash table (ht.h) and its
custom string hash functor (hash.h).

The C++ sources are embedded shallowly:
* `size_t` / `unsigned long long` values become `Nat`; the `% 2 ^ 64`
  wrap-around of 64-bit arithmetic is written explicitly at every operation
  where the C code can overflow.
* raw pointers `HashItem*` become `Option HashItem` (null = `none`);
* throwing functions return `Except HTError _`;
* the class template is instantiated at `K = V = Nat` with the default
  `LinearProber`, the primary hash being an arbitrary function field.
-/

namespace HW6

/-! ### hash.h : MyStringHash -/

/-- Embeds `MyStringHash::letterDigitToNumber`.  Decimal digits map to
26..35, letters map case-insensitively to 0..25.  On alphanumeric
characters this matches the C code exactly; for other characters the C
code wraps a possibly negative `int` into `unsigned long long`, a case no
claim exercises. -/
def letterDigitToNumber (c : Char) : Nat :=
  if c.isDigit then 26 + (c.toNat - '0'.toNat)
  else c.toLower.toNat - 'a'.toNat

/-- Value of character `i` of `k` as a base-36 digit, or 0 when `i` is out
of range, mirroring the bounds test `i >= 0 && i < k.length()` in
`MyStringHash::computeSubstringValue`. -/
def charDigitAt (k : List Char) (i : Int) : Nat :=
  if 0 ≤ i ∧ i < (k.length : Int) then letterDigitToNumber (k.getD i.toNat 'a')
  else 0

/-- Embeds `MyStringHash::computeSubstringValue(k, start, end)`: walks
`i = end-1` down to `start`, accumulating `value += digit(k[i]) * base`
with `base *= 36` each step (also for out-of-range `i`), in
`unsigned long long` arithmetic.  Iteration `j` of the fold is loop
step `i = e - 1 - j` with `base = 36 ^ j`. -/
def computeSubstringValue (k : List Char) (s e : Int) : Nat :=
  (List.range (e - s).toNat).foldl
    (fun value (j : Nat) => (value + charDigitAt k (e - 1 - (j : Int)) * (36 ^ j % 2 ^ 64)) % 2 ^ 64) 0

/-- The fixed (debug-mode) coefficients `MyStringHash::rValues`. -/
def rValues : List Nat := [983132572, 1468777056, 552714139, 984953261, 261934300]

/-- Embeds `MyStringHash::operator()` with the fixed debug coefficients:
`pos` starts at `len % 6` and the loop fills `w[4]` down to `w[0]` from
chunk `[pos-6, pos)` downwards; the final hash is `Σ rValues[i] * w[i]`
in `unsigned long long` arithmetic.  Chunk `i` of the map below is the
loop iteration that fills `w[i]`, whose bounds are
`(pos - 6*(5-i), pos - 6*(4-i))`. -/
def myStringHash (k : List Char) : Nat :=
  let pos : Int := (k.length : Int) % 6
  let w : List Nat := (List.range 5).map (fun i =>
    computeSubstringValue k (pos - 6 * ((5 : Int) - (i : Int))) (pos - 6 * ((4 : Int) - (i : Int))))
  (List.range 5).foldl
    (fun hash i => (hash + rValues.getD i 0 * (w.getD i 0) % 2 ^ 64) % 2 ^ 64) 0

/-! ### ht.h : probers -/

/-- The sentinel `(HASH_INDEX_T)-1` returned when probing is exhausted
(`size_t` is 64 bits wide). -/
def npos : Nat := 2 ^ 64 - 1

/-- State of the base `Prober` class: initial hash location, table size,
and probes issued so far.  `LinearProber` adds no fields. -/
structure ProberState where
  start_ : Nat
  m_ : Nat
  numProbes_ : Nat

/-- Embeds `Prober::init(start, m, key)`; the `key` argument is accepted
and ignored, as in the C++ base class. -/
def Prober.init (start m _key : Nat) : ProberState :=
  { start_ := start, m_ := m, numProbes_ := 0 }

/-- Embeds `LinearProber::next()`: returns `npos` once `numProbes_ >= m_`,
else `(start_ + numProbes_) % m_` (the sum is `size_t` arithmetic, hence
the explicit wrap), and bumps the probe counter. -/
def LinearProber.next (s : ProberState) : Nat × ProberState :=
  if s.m_ ≤ s.numProbes_ then (npos, s)
  else (((s.start_ + s.numProbes_) % 2 ^ 64) % s.m_,
        { s with numProbes_ := s.numProbes_ + 1 })

/-- State after `k` successive calls of `LinearProber::next`. -/
def linStateAfter (s : ProberState) : Nat → ProberState
  | 0 => s
  | k + 1 => (LinearProber.next (linStateAfter s k)).2

/-- Value returned by the `(k+1)`-st call of `LinearProber::next`
(0-indexed: `linOutput s 0` is the first call's result). -/
def linOutput (s : ProberState) (k : Nat) : Nat :=
  (LinearProber.next (linStateAfter s k)).1

/-- The static ladder `DoubleHashProber::DOUBLE_HASH_MOD_VALUES`. -/
def DOUBLE_HASH_MOD_VALUES : List Nat :=
  [7, 19, 43, 89, 193, 389, 787, 1583, 3191, 6397, 12841, 25703, 51431, 102871,
   205721, 411503, 823051, 1646221, 3292463, 6584957, 13169963, 26339921, 52679927,
   105359939, 210719881, 421439749, 842879563, 1685759113]

/-- Index of the first ladder entry `>= cap`, scanning left to right
exactly like the `for` loop in
`DoubleHashProber::findModulusToUseFromTableSize`. -/
def firstGEIdxAux (cap : Nat) : List Nat → Option Nat
  | [] => none
  | v :: rest => if cap ≤ v then some 0 else (firstGEIdxAux cap rest).map (· + 1)

/-- Embeds `DoubleHashProber::findModulusToUseFromTableSize`.  When the
scan stops at index `i`, the C code reads `DOUBLE_HASH_MOD_VALUES[i - 1]`;
for `i = 0` that access is out of bounds in C (undefined behaviour), and
the model's truncated subtraction reads index 0 instead — the two agree
whenever `i >= 1`, which holds for every capacity above the smallest
ladder entry 7 (claim C10). -/
def findModulusToUseFromTableSize (cap : Nat) : Nat :=
  match firstGEIdxAux cap DOUBLE_HASH_MOD_VALUES with
  | some i => DOUBLE_HASH_MOD_VALUES.getD (i - 1) 0
  | none => DOUBLE_HASH_MOD_VALUES.getD (DOUBLE_HASH_MOD_VALUES.length - 1) 0

/-- State of `DoubleHashProber`: the base-class fields plus the per-init
step size `dhstep_`. -/
structure DHProberState where
  start_ : Nat
  m_ : Nat
  numProbes_ : Nat
  dhstep_ : Nat

/-- Embeds `DoubleHashProber::init(start, m, key)` with secondary hash
functor `h2`: calls the base init, then sets
`dhstep_ = modulus - h2(key) % modulus`. -/
def DoubleHashProber.init (h2 : Nat → Nat) (start m key : Nat) : DHProberState :=
  let modulus := findModulusToUseFromTableSize m
  { start_ := start, m_ := m, numProbes_ := 0,
    dhstep_ := modulus - h2 key % modulus }

/-- Embeds `DoubleHashProber::next()`: `npos` once `numProbes_ >= m_`,
else `(start_ + numProbes_ * dhstep_) % m_` in `size_t` arithmetic. -/
def DoubleHashProber.next (s : DHProberState) : Nat × DHProberState :=
  if s.m_ ≤ s.numProbes_ then (npos, s)
  else (((s.start_ + s.numProbes_ * s.dhstep_) % 2 ^ 64) % s.m_,
        { s with numProbes_ := s.numProbes_ + 1 })

/-- State after `k` successive calls of `DoubleHashProber::next`. -/
def dhStateAfter (s : DHProberState) : Nat → DHProberState
  | 0 => s
  | k + 1 => (DoubleHashProber.next (dhStateAfter s k)).2

/-- Value returned by the `(k+1)`-st call of `DoubleHashProber::next`. -/
def dhOutput (s : DHProberState) (k : Nat) : Nat :=
  (DoubleHashProber.next (dhStateAfter s k)).1

/-! ### ht.h : HashTable (instantiated at K = V = Nat, Prober = LinearProber) -/

/-- The exception kinds thrown by the table, one per C++ `throw` site:
`std::logic_error("No free location found")` in `insert`,
`std::logic_error("Maximum capacity reached, ...")` in `resize`, and
`std::out_of_range("Key not found")` in `at`. -/
inductive HTError where
  | probeExhausted
  | capacityExhausted
  | keyNotFound
deriving DecidableEq

/-- Embeds `HashTable::HashItem`: a key/value pair plus the tombstone
flag `deleted` (freshly constructed items have `deleted = false`). -/
structure HashItem where
  item : Nat × Nat
  deleted : Bool
deriving DecidableEq

/-- The static ladder `HashTable::CAPACITIES`. -/
def CAPACITIES : List Nat :=
  [11, 23, 47, 97, 197, 397, 797, 1597, 3203, 6421, 12853, 25717, 51437, 102877,
   205759, 411527, 823117, 1646237, 3292489, 6584983, 13169977, 26339969, 52679969,
   105359969, 210719881, 421439783, 842879579, 1685759167]

/-- Embeds the `HashTable` state: the slot vector (`HashItem*` becomes
`Option HashItem`), the primary hash functor, and the capacity index
`mIndex_`.  The key-equality functor is fixed to equality on `Nat`.
The C++ constructor parameter `resizeAlpha` is *not* a field because the
constructor never stores it (see claim C5). -/
structure HashTable where
  table_ : List (Option HashItem)
  hash_ : Nat → Nat
  mIndex_ : Nat

/-- Embeds the `HashTable` constructor: `resizeAlpha` is accepted and
discarded (the C++ constructor initializer list never mentions it), and
the table is sized to `CAPACITIES[0] = 11` slots of `nullptr`. -/
def htInit (_resizeAlpha : ℚ) (hash : Nat → Nat) : HashTable :=
  { table_ := List.replicate (CAPACITIES.getD 0 0) none, hash_ := hash, mIndex_ := 0 }

/-- Current capacity `CAPACITIES[mIndex_]`. -/
def capacity (t : HashTable) : Nat := CAPACITIES.getD t.mIndex_ 0

/-- Slot `table_[loc]` (out-of-range reads yield `none`; the code only
indexes with in-range probe results). -/
def slotAt (t : HashTable) (loc : Nat) : Option HashItem := t.table_.getD loc none

/-- The occupancy test `item && !item->deleted` used by `size`, `empty`
and the resize loop. -/
def occupiedP : Option HashItem → Bool
  | some hi => !hi.deleted
  | none => false

/-- Embeds `HashTable::size()`: the number of non-null, non-tombstoned
slots. -/
def size (t : HashTable) : Nat := t.table_.countP occupiedP

/-- Embeds `HashTable::empty()`. -/
def empty (t : HashTable) : Bool := !t.table_.any occupiedP

/-- The loop-body test of `HashTable::probe`: a slot stops the probe when
it is null, tombstoned, or holds an equal key. -/
def usable (t : HashTable) (key loc : Nat) : Bool :=
  match slotAt t loc with
  | none => true
  | some hi => hi.deleted || (hi.item.1 == key)

/-- The `while (loc != npos)` loop of `HashTable::probe`, driven by
`LinearProber::next`.  `fuel` bounds the recursion; `probe` passes
`capacity + 1`, which is exactly the number of `next()` calls after which
the prober reports `npos`, so the `0` case is never reached from
`probe`. -/
def probeAux (t : HashTable) (key : Nat) : Nat → ProberState → Option Nat
  | 0, _ => none
  | fuel + 1, s =>
    let r := LinearProber.next s
    if r.1 = npos then none
    else if usable t key r.1 then some r.1
    else probeAux t key fuel r.2

/-- Embeds `HashTable::probe(key)`: start location
`hash_(key) % CAPACITIES[mIndex_]`, prober initialized with the current
capacity, first usable location returned (`none` embeds the `npos`
result). -/
def probe (t : HashTable) (key : Nat) : Option Nat :=
  let m := capacity t
  probeAux t key (m + 1) (Prober.init (t.hash_ key % m) m key)

/-- Embeds `HashTable::find(key)`: null result (`none`) when probing
fails, the slot is null, or the slot is tombstoned; otherwise the stored
pair. -/
def find (t : HashTable) (key : Nat) : Option (Nat × Nat) :=
  match probe t key with
  | none => none
  | some idx =>
    match slotAt t idx with
    | none => none
    | some hi => if hi.deleted then none else some hi.item

/-- Embeds `HashTable::at(key)`: thunks on `find` and throws
`KeyNotFound` on a null result, otherwise returns the stored value. -/
def at' (t : HashTable) (key : Nat) : Except HTError Nat :=
  match find t key with
  | none => Except.error HTError.keyNotFound
  | some it => Except.ok it.2

/-- Embeds `HashTable::remove(key)`: when probing finds a non-null slot,
its `deleted` flag is set (whatever key it holds); otherwise no-op. -/
def remove (t : HashTable) (key : Nat) : HashTable :=
  match probe t key with
  | none => t
  | some idx =>
    match slotAt t idx with
    | none => t
    | some hi => { t with table_ := t.table_.set idx (some { hi with deleted := true }) }

/-- One step of the rehash loop in `HashTable::resize()`: a live slot is
re-probed and written into the new vector, dead slots are dropped.
Faithful detail: `probe` here is called on the *old* table `t` — in the
C++ code `mIndex_` is updated only after this loop, so the probe uses the
old capacity and the old slot array.  A `none` probe result cannot occur
with the linear prober (the item's own slot always stops the probe); in
C++ it would index `newTable` at `npos`, out of bounds. -/
def placeOld (t : HashTable) (acc : List (Option HashItem)) (slot : Option HashItem) :
    List (Option HashItem) :=
  match slot with
  | none => acc
  | some hi =>
    if hi.deleted then acc
    else
      match probe t hi.item.1 with
      | some idx => acc.set idx (some hi)
      | none => acc

/-- Embeds `HashTable::resize()` (the `newIdx = mIndex_ + 1` of the C
code is inlined): throws when the ladder is exhausted, else rebuilds the
slot vector at the next ladder capacity via `placeOld` and only then
advances `mIndex_`. -/
def resize (t : HashTable) : Except HTError HashTable :=
  if CAPACITIES.length ≤ t.mIndex_ + 1 then Except.error HTError.capacityExhausted
  else
    Except.ok
      { t with
        table_ := t.table_.foldl (placeOld t)
          (List.replicate (CAPACITIES.getD (t.mIndex_ + 1) 0) (none : Option HashItem))
        mIndex_ := t.mIndex_ + 1 }

/-- The placement part of `HashTable::insert(p)`, after the optional
resize: probe for a slot (throwing when probing is exhausted); a null
slot is filled with a freshly constructed `HashItem(p)`, while a non-null
slot — tombstoned or holding an equal key — keeps its existing key and
only has its value overwritten and its tombstone flag cleared, exactly as
`table_[index]->item.second = p.second; table_[index]->deleted = false;`
does. -/
def insertPlace (t1 : HashTable) (p : Nat × Nat) : Except HTError HashTable :=
  match probe t1 p.1 with
  | none => Except.error HTError.probeExhausted
  | some idx =>
    match slotAt t1 idx with
    | none => Except.ok { t1 with table_ := t1.table_.set idx (some ⟨p, false⟩) }
    | some hi =>
      Except.ok { t1 with table_ := t1.table_.set idx (some ⟨(hi.item.1, p.2), false⟩) }

/-- Embeds `HashTable::insert(p)`.  The C++ threshold test is
`size() / static_cast<double>(CAPACITIES[mIndex_]) >= 0.4` in IEEE
double arithmetic; for every `size <= 2^53` and every capacity in
`CAPACITIES` (all below `2^31`) that comparison is exactly
`5 * size >= 2 * capacity`: the quotient differs from the rational 2/5
either by 0 or by at least `1/(5*capacity) > 2^-34`, which dwarfs both
the `2^-54`-scale rounding of the quotient and the `2^-54`-scale gap
between the double literal `0.4` and the real 2/5.  An exception from the
resize propagates, aborting the insert. -/
def insert (t : HashTable) (p : Nat × Nat) : Except HTError HashTable :=
  match (if 2 * capacity t ≤ 5 * size t then resize t else Except.ok t) with
  | Except.error e => Except.error e
  | Except.ok t1 => insertPlace t1 p

/-- A public operation on the table, for stating claims about operation
sequences. -/
inductive Op where
  | ins (k v : Nat)
  | rem (k : Nat)
  | fnd (k : Nat)
  | acc (k : Nat)
  | res
deriving DecidableEq

/-- Effect of one public operation on the table state.  `find` is const;
`at` is const but propagates its `KeyNotFound` exception. -/
def step (t : HashTable) : Op → Except HTError HashTable
  | Op.ins k v => insert t (k, v)
  | Op.rem k => Except.ok (remove t k)
  | Op.fnd _ => Except.ok t
  | Op.acc k => (at' t k).map (fun _ => t)
  | Op.res => resize t

/-- Runs a sequence of public operations; an exception aborts the run. -/
def run (t : HashTable) : List Op → Except HTError HashTable
  | [] => Except.ok t
  | op :: ops =>
    match step t op with
    | Except.ok t1 => run t1 ops
    | Except.error e => Except.error e

/-- Decidable equality for `Except`, so that concrete runs of the table
can be checked by `decide`. -/
instance exceptDecEq {ε : Type u} {α : Type v} [DecidableEq ε] [DecidableEq α] :
    DecidableEq (Except ε α) := fun x y =>
  match x, y with
  | Except.ok a, Except.ok b =>
    if h : a = b then isTrue (by rw [h]) else isFalse (fun hh => h (Except.ok.inj hh))
  | Except.error e, Except.error f =>
    if h : e = f then isTrue (by rw [h]) else isFalse (fun hh => h (Except.error.inj hh))
  | Except.ok _, Except.error _ => isFalse (fun hh => Except.noConfusion hh)
  | Except.error _, Except.ok _ => isFalse (fun hh => Except.noConfusion hh)

/-- Number of live (non-tombstoned) slots holding key `k` — the quantity
bounded by claim C3. -/
def liveCountKey (t : HashTable) (k : Nat) : Nat :=
  t.table_.countP (fun s =>
    match s with
    | some hi => !hi.deleted && (hi.item.1 == k)
    | none => false)

/-- A table as built by `HashTable<int,int>` with the default threshold
argument 0.4 and the identity as primary hash. -/
def t0 : HashTable := htInit (2 / 5) (fun n => n)

/-- Five inserts whose keys hash to five distinct slots of the initial
capacity-11 table. -/
def opsFill5 : List Op := [Op.ins 0 0, Op.ins 1 1, Op.ins 2 2, Op.ins 3 3, Op.ins 4 4]

/-- A 31-character key: 31 times the letter a. -/
def keyA : List Char := List.replicate 31 'a'

/-- A 31-character key agreeing with `keyA` on the last 30 characters and
differing in the first one. -/
def keyB : List Char := 'b' :: List.replicate 30 'a'

/-- A concrete table holding the pair (1, 10) live in slot 1, used to
witness the `at`/`find` agreement on a present key. -/
def tC9 : HashTable :=
  { table_ := (List.replicate 11 (none : Option HashItem)).set 1 (some ⟨(1, 10), false⟩),
    hash_ := fun n => n,
    mIndex_ := 0 }

/-- The occupancy invariant that actually holds between public
operations: at most 4 more than two fifths of the capacity (in the
integer form `5*size ≤ 2*capacity + 4`), together with a valid capacity
index. -/
def Inv (t : HashTable) : Prop :=
  5 * size t ≤ 2 * capacity t + 4 ∧ t.mIndex_ < CAPACITIES.length

/-! ## Theorems -/

/-! ### Prober lemmas -/

theorem linStateAfter_init (start m key k : Nat) :
    linStateAfter (Prober.init start m key) k = ⟨start, m, if k ≤ m then k else m⟩ := by
  induction k with
  | zero => simp [linStateAfter, Prober.init]
  | succ k ih =>
    show (LinearProber.next (linStateAfter (Prober.init start m key) k)).2 = _
    rw [ih]
    unfold LinearProber.next
    dsimp only
    by_cases h : m ≤ if k ≤ m then k else m
    · rw [if_pos h]
      simp only [ProberState.mk.injEq, true_and]
      split_ifs at h ⊢ <;> omega
    · rw [if_neg h]
      simp only [ProberState.mk.injEq, true_and]
      split_ifs at h ⊢ <;> omega

theorem linOutput_eq_of_lt (start m key : Nat) (hw : start + m ≤ 2 ^ 64)
    (i : Nat) (hi : i < m) :
    linOutput (Prober.init start m key) i = (start + i) % m := by
  unfold linOutput
  rw [linStateAfter_init]
  unfold LinearProber.next
  dsimp only
  have hmin : (if i ≤ m then i else m) = i := by
    split_ifs <;> omega
  rw [hmin, if_neg (by omega)]
  have hnw : (start + i) % 2 ^ 64 = start + i := Nat.mod_eq_of_lt (by omega)
  rw [hnw]

theorem linOutput_npos (start m key k : Nat) (hk : m ≤ k) :
    linOutput (Prober.init start m key) k = npos := by
  unfold linOutput
  rw [linStateAfter_init]
  unfold LinearProber.next
  dsimp only
  have hmin : (if k ≤ m then k else m) = m := by
    split_ifs <;> omega
  rw [hmin]
  split_ifs with h
  · rfl
  · omega

theorem probeStep_inj (m step : Nat) (hco : Nat.Coprime step m)
    (start i1 i2 : Nat) (h1 : i1 < m) (h2 : i2 < m)
    (he : (start + i1 * step) % m = (start + i2 * step) % m) : i1 = i2 := by
  have hmod : Nat.ModEq m (i1 * step) (i2 * step) :=
    Nat.ModEq.add_left_cancel' start he
  have h12 : Nat.ModEq m i1 i2 :=
    Nat.ModEq.cancel_right_of_coprime (Nat.coprime_comm.mp hco) hmod
  have := h12
  unfold Nat.ModEq at this
  rw [Nat.mod_eq_of_lt h1, Nat.mod_eq_of_lt h2] at this
  exact this

theorem probeStep_surj (m step : Nat) (hm : 0 < m) (hco : Nat.Coprime step m)
    (start j : Nat) (hj : j < m) :
    ∃ i, i < m ∧ (start + i * step) % m = j := by
  have hinj : Function.Injective
      (fun i : Fin m => (⟨(start + i.1 * step) % m, Nat.mod_lt _ hm⟩ : Fin m)) := by
    intro a b hab
    exact Fin.ext (probeStep_inj m step hco start a.1 b.1 a.2 b.2 (congrArg Fin.val hab))
  have hsurj := Finite.injective_iff_surjective.mp hinj
  obtain ⟨i, hi⟩ := hsurj ⟨j, hj⟩
  exact ⟨i.1, i.2, congrArg Fin.val hi⟩

/-- C8 (confirmed): for any capacity `m ≥ 1`, start index and key, the
first `m` calls of `LinearProber::next` return `(start + i) % m` for
`i = 0 .. m-1`; those values are pairwise distinct and cover every index
below `m` (each index is visited exactly once), and every call from the
`(m+1)`-st on returns the `npos` sentinel.  The side condition
`start + m ≤ 2^64` says the `size_t` sum `start_ + numProbes_` does not
wrap; the table always probes with `start < m ≤ 1685759167`. -/
theorem C8_linear_prober (start m key : Nat) (hm : 1 ≤ m) (hw : start + m ≤ 2 ^ 64) :
    (∀ i, i < m → linOutput (Prober.init start m key) i = (start + i) % m) ∧
    (∀ i1 i2, i1 < m → i2 < m → (start + i1) % m = (start + i2) % m → i1 = i2) ∧
    (∀ j, j < m → ∃ i, i < m ∧ (start + i) % m = j) ∧
    (∀ k, m ≤ k → linOutput (Prober.init start m key) k = npos) := by
  refine ⟨fun i hi => linOutput_eq_of_lt start m key hw i hi,
          fun i1 i2 h1 h2 he => ?_, fun j hj => ?_,
          fun k hk => linOutput_npos start m key k hk⟩
  · exact probeStep_inj m 1 (Nat.coprime_one_left m) start i1 i2 h1 h2 (by simpa using he)
  · obtain ⟨i, him, hi⟩ := probeStep_surj m 1 (by omega) (Nat.coprime_one_left m) start j hj
    exact ⟨i, him, by simpa using hi⟩

/-- Witness for C8 at `start = 3`, `m = 11`, key 0. -/
theorem C8_witness :
    (1 ≤ 11 ∧ 3 + 11 ≤ 2 ^ 64) ∧
    ((∀ i, i < 11 → linOutput (Prober.init 3 11 0) i = (3 + i) % 11) ∧
     (∀ i1 i2, i1 < 11 → i2 < 11 → (3 + i1) % 11 = (3 + i2) % 11 → i1 = i2) ∧
     (∀ j, j < 11 → ∃ i, i < 11 ∧ (3 + i) % 11 = j) ∧
     (∀ k, 11 ≤ k → linOutput (Prober.init 3 11 0) k = npos)) :=
  ⟨⟨by decide, by decide⟩, C8_linear_prober 3 11 0 (by decide) (by decide)⟩

/-- C1 (code bug): with the identity hash, after `insert(1,10)`,
`remove(1)`, `insert(12,20)` — keys 1 and 12 both hash to slot 1 — the
claim says `find(12)` returns the pair holding 20 (12 was inserted last
and never removed) and `find(1)` is null (1 was removed after its last
insertion).  The code disagrees on both: `insert(12,20)` reuses the
tombstone of key 1 but keeps the stored key 1, so `find(12)` is null and
`find(1)` returns a live pair (1, 20). -/
theorem C1_tombstone_reuse_breaks_find :
    (run t0 [Op.ins 1 10, Op.rem 1, Op.ins 12 20]).map (fun t => (find t 12, find t 1)) =
      Except.ok (none, some (1, 20)) := by decide

/-- C2 (code bug): with the identity hash, key 12 is live before a
`resize()` (stored at slot `12 % 11 = 1`) and `find(12)` sees it; the
resize re-probes with the old capacity 11 and the old table (`mIndex_` is
updated only after the rehash loop), so the item is placed at index 1 of
the new capacity-23 table, where the post-resize probe starting at
`12 % 23 = 12` never looks — `find(12)` is null after the resize,
refuting the round-trip part of the claim. -/
theorem C2_resize_loses_live_key :
    (run t0 [Op.ins 12 5]).map (fun t => find t 12) = Except.ok (some (12, 5)) ∧
    (run t0 [Op.ins 12 5, Op.res]).map (fun t => find t 12) = Except.ok none := by decide

/-- C3 (code bug): after `insert(12,5)`, `resize()`, `insert(12,7)` —
all public operations — the table holds two non-tombstoned slots with
key 12 (slot 1, left there by the buggy rehash, and slot 12, freshly
created because the probe from `12 % 23` finds an empty slot first),
refuting the at-most-one-live-slot-per-key invariant. -/
theorem C3_duplicate_live_key :
    (run t0 [Op.ins 12 5, Op.res, Op.ins 12 7]).map (fun t => liveCountKey t 12) =
      Except.ok 2 := by decide

/-- C4 (counterexample): after the five inserts of `opsFill5` the table
sits between public operations with 5 occupied slots and capacity 11, and
5/11 exceeds the threshold 2/5 = 0.4 — the ratio stays above the
threshold until the next insert call, refuting the claim that it never
exceeds the threshold between operations. -/
theorem C4_counterexample :
    (run t0 opsFill5).map (fun t => (size t, capacity t)) = Except.ok (5, 11) ∧
    (2 : ℚ) / 5 < 5 / 11 := by
  refine ⟨by decide, by norm_num⟩

/-- C5 (counterexample): a table constructed with `resizeAlpha = 1` has,
after the five inserts of `opsFill5`, occupancy ratio 5/11 < 1, so the
claim says the next insert proceeds without resizing; the code resizes
anyway (`mIndex_` advances from 0 to 1), because `insert` compares
against the literal 0.4 and the constructor discards `resizeAlpha`. -/
theorem C5_counterexample :
    (run (htInit 1 (fun n => n)) opsFill5).map (fun t => (size t, capacity t, t.mIndex_)) =
      Except.ok (5, 11, 0) ∧
    (run (htInit 1 (fun n => n)) (opsFill5 ++ [Op.ins 5 5])).map (fun t => t.mIndex_) =
      Except.ok 1 ∧
    (5 : ℚ) / 11 < 1 := by
  refine ⟨by decide, by decide, by norm_num⟩

/-- C6 (code bug): the two 31-character keys `keyA` and `keyB` agree on
their last 30 characters and differ only in the first one, yet their
hashes differ (0 versus 261934300): the chunking loop starts at
`pos = len % 6`, so only the first `len % 6` characters of the key ever
contribute, refuting the claim that only the last 30 characters influence
the hash. -/
theorem C6_hash_depends_on_prefix :
    keyA.drop (keyA.length - 30) = keyB.drop (keyB.length - 30) ∧
    myStringHash keyA = 0 ∧ myStringHash keyB = 261934300 ∧
    myStringHash keyA ≠ myStringHash keyB := by decide

/-! ### Double-hash prober lemmas -/

theorem firstGEIdxAux_lt_length (cap : Nat) :
    ∀ (l : List Nat) (i : Nat), firstGEIdxAux cap l = some i → i < l.length := by
  intro l
  induction l with
  | nil => intro i h; simp [firstGEIdxAux] at h
  | cons v rest ih =>
    intro i h
    simp only [firstGEIdxAux] at h
    by_cases hc : cap ≤ v
    · rw [if_pos hc] at h
      obtain rfl : (0 : Nat) = i := Option.some.inj h
      simp
    · rw [if_neg hc] at h
      obtain ⟨j, hj, rfl⟩ := Option.map_eq_some'.mp h
      have := ih j hj
      simp only [List.length_cons]
      omega

theorem firstGEIdxAux_spec (cap : Nat) :
    ∀ (l : List Nat) (i : Nat), firstGEIdxAux cap l = some i →
      cap ≤ l.getD i 0 ∧ ∀ j, j < i → l.getD j 0 < cap := by
  intro l
  induction l with
  | nil => intro i h; simp [firstGEIdxAux] at h
  | cons v rest ih =>
    intro i h
    simp only [firstGEIdxAux] at h
    by_cases hc : cap ≤ v
    · rw [if_pos hc] at h
      obtain rfl : (0 : Nat) = i := Option.some.inj h
      exact ⟨hc, fun j hj => absurd hj (Nat.not_lt_zero j)⟩
    · rw [if_neg hc] at h
      obtain ⟨j0, hj0, rfl⟩ := Option.map_eq_some'.mp h
      obtain ⟨h1, h2⟩ := ih j0 hj0
      refine ⟨h1, fun j hj => ?_⟩
      cases j with
      | zero => exact lt_of_not_ge hc
      | succ j => exact h2 j (Nat.lt_of_succ_lt_succ hj)

theorem firstGEIdxAux_none (cap : Nat) :
    ∀ (l : List Nat), firstGEIdxAux cap l = none → ∀ v ∈ l, v < cap := by
  intro l
  induction l with
  | nil => intro _ v hv; cases hv
  | cons a rest ih =>
    intro h v hv
    simp only [firstGEIdxAux] at h
    by_cases hc : cap ≤ a
    · rw [if_pos hc] at h; cases h
    · rw [if_neg hc] at h
      have hr : firstGEIdxAux cap rest = none := by
        cases hfr : firstGEIdxAux cap rest with
        | none => rfl
        | some j => rw [hfr] at h; cases h
      rcases List.mem_cons.mp hv with rfl | hv'
      · omega
      · exact ih hr v hv'

theorem VALUES_sorted_getD :
    ∀ k, k < 28 → ∀ j, j ≤ k →
      DOUBLE_HASH_MOD_VALUES.getD j 0 ≤ DOUBLE_HASH_MOD_VALUES.getD k 0 := by decide

theorem VALUES_le_max : ∀ v ∈ DOUBLE_HASH_MOD_VALUES, v ≤ 1685759113 := by decide

theorem VALUES_getD_mem (i : Nat) (h : i < DOUBLE_HASH_MOD_VALUES.length) :
    DOUBLE_HASH_MOD_VALUES.getD i 0 ∈ DOUBLE_HASH_MOD_VALUES := by
  rw [List.getD_eq_getElem _ _ h]
  exact List.getElem_mem h

theorem findModulus_greatest (cap : Nat) (h7 : 7 < cap) :
    findModulusToUseFromTableSize cap ∈ DOUBLE_HASH_MOD_VALUES ∧
    findModulusToUseFromTableSize cap < cap ∧
    ∀ v ∈ DOUBLE_HASH_MOD_VALUES, v < cap → v ≤ findModulusToUseFromTableSize cap := by
  have hlen : DOUBLE_HASH_MOD_VALUES.length = 28 := by decide
  unfold findModulusToUseFromTableSize
  cases hfi : firstGEIdxAux cap DOUBLE_HASH_MOD_VALUES with
  | none =>
    have hall := firstGEIdxAux_none cap _ hfi
    refine ⟨VALUES_getD_mem _ (by omega), hall _ (VALUES_getD_mem _ (by omega)), ?_⟩
    intro v hv _
    obtain ⟨n, hn⟩ := List.mem_iff_get.mp hv
    have hv' : v = DOUBLE_HASH_MOD_VALUES.getD n.1 0 := by
      rw [List.getD_eq_getElem _ _ n.2, ← hn]
      rfl
    rw [hv']
    have hn28 : n.1 < 28 := by have := n.2; omega
    exact VALUES_sorted_getD (DOUBLE_HASH_MOD_VALUES.length - 1) (by omega) n.1 (by omega)
  | some i =>
    have hlt := firstGEIdxAux_lt_length cap _ i hfi
    obtain ⟨hge, hbelow⟩ := firstGEIdxAux_spec cap _ i hfi
    have hi1 : 1 ≤ i := by
      by_contra hi0
      have hizero : i = 0 := by omega
      subst hizero
      have h70 : DOUBLE_HASH_MOD_VALUES.getD 0 0 = 7 := rfl
      rw [h70] at hge
      omega
    refine ⟨VALUES_getD_mem _ (by omega), hbelow (i - 1) (by omega), ?_⟩
    intro v hv hvc
    obtain ⟨n, hn⟩ := List.mem_iff_get.mp hv
    have hv' : v = DOUBLE_HASH_MOD_VALUES.getD n.1 0 := by
      rw [List.getD_eq_getElem _ _ n.2, ← hn]
      rfl
    have hn28 : n.1 < 28 := by have := n.2; omega
    by_cases hni : n.1 ≤ i - 1
    · rw [hv']
      exact VALUES_sorted_getD (i - 1) (by omega) n.1 hni
    · exfalso
      have hge' : cap ≤ DOUBLE_HASH_MOD_VALUES.getD n.1 0 :=
        le_trans hge (VALUES_sorted_getD n.1 hn28 i (by omega))
      rw [hv'] at hvc
      omega

theorem dhStateAfter_init (h2 : Nat → Nat) (start m key k : Nat) :
    dhStateAfter (DoubleHashProber.init h2 start m key) k =
      ⟨start, m, if k ≤ m then k else m, (DoubleHashProber.init h2 start m key).dhstep_⟩ := by
  induction k with
  | zero => simp [dhStateAfter, DoubleHashProber.init]
  | succ k ih =>
    show (DoubleHashProber.next (dhStateAfter (DoubleHashProber.init h2 start m key) k)).2 = _
    rw [ih]
    unfold DoubleHashProber.next
    dsimp only
    by_cases h : m ≤ if k ≤ m then k else m
    · rw [if_pos h]
      simp only [DHProberState.mk.injEq, true_and, and_true]
      split_ifs at h ⊢ <;> omega
    · rw [if_neg h]
      simp only [DHProberState.mk.injEq, true_and, and_true]
      split_ifs at h ⊢ <;> omega

theorem dhOutput_eq_of_lt (h2 : Nat → Nat) (start m key i : Nat) (hi : i < m)
    (hnw : start + i * (DoubleHashProber.init h2 start m key).dhstep_ < 2 ^ 64) :
    dhOutput (DoubleHashProber.init h2 start m key) i =
      (start + i * (DoubleHashProber.init h2 start m key).dhstep_) % m := by
  unfold dhOutput
  rw [dhStateAfter_init]
  unfold DoubleHashProber.next
  dsimp only
  have hmin : (if i ≤ m then i else m) = i := by
    split_ifs <;> omega
  rw [hmin, if_neg (by omega), Nat.mod_eq_of_lt hnw]

theorem dhOutput_npos (h2 : Nat → Nat) (start m key k : Nat) (hk : m ≤ k) :
    dhOutput (DoubleHashProber.init h2 start m key) k = npos := by
  unfold dhOutput
  rw [dhStateAfter_init]
  unfold DoubleHashProber.next
  dsimp only
  have hmin : (if k ≤ m then k else m) = m := by
    split_ifs <;> omega
  rw [hmin]
  split_ifs with h
  · rfl
  · omega

/-- C7 (confirmed): after `init(start, capacity, key)` the double-hash
prober's step is `modulus - secondaryHash(key) % modulus` where `modulus`
is the greatest `DOUBLE_HASH_MOD_VALUES` entry strictly below the
capacity; its first `capacity` calls return `(start + i*step) % capacity`
and every later call returns `npos`; and when the capacity is prime and
the step coprime to it, those `capacity` values are pairwise distinct and
cover every index (each visited exactly once).  Preconditions: capacity
above the smallest ladder entry 7 (otherwise the C modulus lookup reads
out of bounds, claim C10), capacity at most the largest table capacity
1685759167, and a start index below the capacity, as supplied by
`HashTable::probe`; these bound the `size_t` products away from
wrap-around. -/
theorem C7_double_hash_prober (h2 : Nat → Nat) (start cap key : Nat)
    (hcap7 : 7 < cap) (hcapmax : cap ≤ 1685759167) (hstart : start < cap) :
    ((DoubleHashProber.init h2 start cap key).dhstep_ =
        findModulusToUseFromTableSize cap - h2 key % findModulusToUseFromTableSize cap) ∧
    (findModulusToUseFromTableSize cap ∈ DOUBLE_HASH_MOD_VALUES ∧
      findModulusToUseFromTableSize cap < cap ∧
      ∀ v ∈ DOUBLE_HASH_MOD_VALUES, v < cap → v ≤ findModulusToUseFromTableSize cap) ∧
    (∀ i, i < cap → dhOutput (DoubleHashProber.init h2 start cap key) i =
        (start + i * (DoubleHashProber.init h2 start cap key).dhstep_) % cap) ∧
    (∀ k, cap ≤ k → dhOutput (DoubleHashProber.init h2 start cap key) k = npos) ∧
    (Nat.Prime cap → Nat.Coprime (DoubleHashProber.init h2 start cap key).dhstep_ cap →
      (∀ i1 i2, i1 < cap → i2 < cap →
        (start + i1 * (DoubleHashProber.init h2 start cap key).dhstep_) % cap =
          (start + i2 * (DoubleHashProber.init h2 start cap key).dhstep_) % cap → i1 = i2) ∧
      (∀ j, j < cap → ∃ i, i < cap ∧
        (start + i * (DoubleHashProber.init h2 start cap key).dhstep_) % cap = j)) := by
  have hgreat := findModulus_greatest cap hcap7
  have hM : findModulusToUseFromTableSize cap ≤ 1685759113 := VALUES_le_max _ hgreat.1
  have hstep : (DoubleHashProber.init h2 start cap key).dhstep_ ≤
      findModulusToUseFromTableSize cap := Nat.sub_le _ _
  have hnw : ∀ i, i < cap →
      start + i * (DoubleHashProber.init h2 start cap key).dhstep_ < 2 ^ 64 := by
    intro i hi
    have h1 : i * (DoubleHashProber.init h2 start cap key).dhstep_ ≤
        1685759167 * 1685759113 := Nat.mul_le_mul (by omega) (le_trans hstep hM)
    have h2' : (1685759167 : Nat) * 1685759113 + 1685759167 < 2 ^ 64 := by norm_num
    omega
  refine ⟨rfl, hgreat, fun i hi => dhOutput_eq_of_lt h2 start cap key i hi (hnw i hi),
          fun k hk => dhOutput_npos h2 start cap key k hk, fun _ hco => ?_⟩
  exact ⟨fun i1 i2 h1 h2'' he =>
           probeStep_inj cap (DoubleHashProber.init h2 start cap key).dhstep_
             hco start i1 i2 h1 h2'' he,
         fun j hj =>
           probeStep_surj cap (DoubleHashProber.init h2 start cap key).dhstep_
             (by omega) hco start j hj⟩

/-- Witness for C7: capacity 11, start 3, the constant-zero secondary
hash, key 5.  The modulus is 7 and the step `7 - 0 % 7 = 7` is coprime to
the prime capacity 11. -/
theorem C7_witness :
    (7 < 11 ∧ 11 ≤ 1685759167 ∧ 3 < 11) ∧
    (((DoubleHashProber.init (fun _ => 0) 3 11 5).dhstep_ =
        findModulusToUseFromTableSize 11 - 0 % findModulusToUseFromTableSize 11) ∧
     (findModulusToUseFromTableSize 11 ∈ DOUBLE_HASH_MOD_VALUES ∧
       findModulusToUseFromTableSize 11 < 11 ∧
       ∀ v ∈ DOUBLE_HASH_MOD_VALUES, v < 11 → v ≤ findModulusToUseFromTableSize 11) ∧
     (∀ i, i < 11 → dhOutput (DoubleHashProber.init (fun _ => 0) 3 11 5) i =
         (3 + i * (DoubleHashProber.init (fun _ => 0) 3 11 5).dhstep_) % 11) ∧
     (∀ k, 11 ≤ k → dhOutput (DoubleHashProber.init (fun _ => 0) 3 11 5) k = npos) ∧
     (Nat.Prime 11 → Nat.Coprime (DoubleHashProber.init (fun _ => 0) 3 11 5).dhstep_ 11 →
       (∀ i1 i2, i1 < 11 → i2 < 11 →
         (3 + i1 * (DoubleHashProber.init (fun _ => 0) 3 11 5).dhstep_) % 11 =
           (3 + i2 * (DoubleHashProber.init (fun _ => 0) 3 11 5).dhstep_) % 11 → i1 = i2) ∧
       (∀ j, j < 11 → ∃ i, i < 11 ∧
         (3 + i * (DoubleHashProber.init (fun _ => 0) 3 11 5).dhstep_) % 11 = j))) :=
  ⟨⟨by decide, by decide, by decide⟩,
   C7_double_hash_prober (fun _ => 0) 3 11 5 (by decide) (by decide) (by decide)⟩

/-- C10 (confirmed): every capacity in `CAPACITIES` exceeds 7, and for
any capacity above 7 the scan of `findModulusToUseFromTableSize` can only
stop at an index `i` with `1 ≤ i < 28`, so the C access
`DOUBLE_HASH_MOD_VALUES[i - 1]` is in bounds. -/
theorem C10_modulus_selector_inbounds :
    (∀ c ∈ CAPACITIES, 7 < c) ∧
    (∀ cap i, 7 < cap → firstGEIdxAux cap DOUBLE_HASH_MOD_VALUES = some i →
      1 ≤ i ∧ i < DOUBLE_HASH_MOD_VALUES.length) := by
  refine ⟨by decide, fun cap i h7 hfi => ?_⟩
  have hlt := firstGEIdxAux_lt_length cap _ i hfi
  obtain ⟨hge, _⟩ := firstGEIdxAux_spec cap _ i hfi
  refine ⟨?_, hlt⟩
  by_contra hi0
  have hizero : i = 0 := by omega
  subst hizero
  have h70 : DOUBLE_HASH_MOD_VALUES.getD 0 0 = 7 := rfl
  rw [h70] at hge
  omega

/-- Witness for C10 at capacity 11: the scan stops at index 1 and the
accessed index 0 is in bounds. -/
theorem C10_witness :
    (7 < 11 ∧ firstGEIdxAux 11 DOUBLE_HASH_MOD_VALUES = some 1) ∧
    (1 ≤ 1 ∧ 1 < DOUBLE_HASH_MOD_VALUES.length) :=
  ⟨⟨by decide, by decide⟩, C10_modulus_selector_inbounds.2 11 1 (by decide) (by decide)⟩

/-! ### Occupancy-invariant lemmas -/

theorem countP_set_le {α : Type u} (p : α → Bool) :
    ∀ (l : List α) (i : Nat) (x : α), (l.set i x).countP p ≤ l.countP p + 1 := by
  intro l
  induction l with
  | nil => intro i x; simp
  | cons a l ih =>
    intro i x
    cases i with
    | zero =>
      simp only [List.set_cons_zero, List.countP_cons]
      split_ifs <;> omega
    | succ i =>
      simp only [List.set_cons_succ, List.countP_cons]
      have := ih i x
      split_ifs <;> omega

theorem countP_set_le_of_neg {α : Type u} (p : α → Bool) :
    ∀ (l : List α) (i : Nat) (x : α), p x = false → (l.set i x).countP p ≤ l.countP p := by
  intro l
  induction l with
  | nil => intro i x _; simp
  | cons a l ih =>
    intro i x hx
    cases i with
    | zero =>
      simp only [List.set_cons_zero, List.countP_cons]
      rw [if_neg (by simp [hx])]
      split_ifs <;> omega
    | succ i =>
      simp only [List.set_cons_succ, List.countP_cons]
      have := ih i x hx
      split_ifs <;> omega

theorem countP_replicate_none (n : Nat) :
    (List.replicate n (none : Option HashItem)).countP occupiedP = 0 := by
  rw [List.countP_eq_zero]
  intro a ha
  rw [List.eq_of_mem_replicate ha]
  simp [occupiedP]

theorem placeOld_countP (t : HashTable) (acc : List (Option HashItem))
    (a : Option HashItem) :
    (placeOld t acc a).countP occupiedP ≤
      acc.countP occupiedP + (if occupiedP a then 1 else 0) := by
  unfold placeOld
  split
  · simp [occupiedP]
  · next hi =>
    split
    · next hd =>
      have hocc : occupiedP (some hi) = false := by simp [occupiedP, hd]
      rw [hocc]
      simp
    · next hd =>
      have hocc : occupiedP (some hi) = true := by
        simp only [occupiedP, Bool.not_eq_true']
        exact Bool.not_eq_true _ ▸ hd
      rw [hocc]
      split
      · next idx _ =>
        have := countP_set_le occupiedP acc idx (some hi)
        simp only [if_pos trivial]
        simpa using this
      · simp

theorem foldl_placeOld_countP (t : HashTable) :
    ∀ (l acc : List (Option HashItem)),
      (l.foldl (placeOld t) acc).countP occupiedP ≤
        acc.countP occupiedP + l.countP occupiedP := by
  intro l
  induction l with
  | nil => intro acc; simp
  | cons a l ih =>
    intro acc
    rw [List.foldl_cons, List.countP_cons]
    have h1 := ih (placeOld t acc a)
    have h2 := placeOld_countP t acc a
    split_ifs at h2 ⊢ <;> omega

theorem resize_ok (t t' : HashTable) (h : resize t = Except.ok t') :
    t'.mIndex_ = t.mIndex_ + 1 ∧ t.mIndex_ + 1 < CAPACITIES.length ∧ size t' ≤ size t := by
  unfold resize at h
  by_cases hlen : CAPACITIES.length ≤ t.mIndex_ + 1
  · rw [if_pos hlen] at h
    exact Except.noConfusion h
  · rw [if_neg hlen] at h
    obtain rfl := Except.ok.inj h
    refine ⟨rfl, by omega, ?_⟩
    show (t.table_.foldl (placeOld t) _).countP occupiedP ≤ size t
    calc (t.table_.foldl (placeOld t)
            (List.replicate (CAPACITIES.getD (t.mIndex_ + 1) 0) none)).countP occupiedP
        ≤ (List.replicate (CAPACITIES.getD (t.mIndex_ + 1) 0)
            (none : Option HashItem)).countP occupiedP + t.table_.countP occupiedP :=
          foldl_placeOld_countP t _ _
      _ = size t := by rw [countP_replicate_none]; simp [size]

theorem capGap : ∀ i, i < CAPACITIES.length - 1 →
    CAPACITIES.getD i 0 + 12 ≤ CAPACITIES.getD (i + 1) 0 := by decide

theorem remove_fields (t : HashTable) (k : Nat) :
    size (remove t k) ≤ size t ∧ (remove t k).mIndex_ = t.mIndex_ := by
  unfold remove
  split
  · exact ⟨le_refl _, rfl⟩
  · split
    · exact ⟨le_refl _, rfl⟩
    · refine ⟨?_, rfl⟩
      show (t.table_.set _ _).countP occupiedP ≤ _
      exact countP_set_le_of_neg occupiedP t.table_ _ _ (by simp [occupiedP])

theorem insertPlace_ok (t1 : HashTable) (p : Nat × Nat) (t' : HashTable)
    (h : insertPlace t1 p = Except.ok t') :
    size t' ≤ size t1 + 1 ∧ t'.mIndex_ = t1.mIndex_ := by
  unfold insertPlace at h
  split at h
  · exact Except.noConfusion h
  · split at h
    · obtain rfl := Except.ok.inj h
      exact ⟨countP_set_le occupiedP t1.table_ _ _, rfl⟩
    · obtain rfl := Except.ok.inj h
      exact ⟨countP_set_le occupiedP t1.table_ _ _, rfl⟩

theorem capacity_mIndex (t t' : HashTable) (h : t'.mIndex_ = t.mIndex_) :
    capacity t' = capacity t := by
  unfold capacity
  rw [h]

theorem resize_inv (t t' : HashTable) (hI : Inv t) (h : resize t = Except.ok t') :
    Inv t' := by
  obtain ⟨hmi, hlen, hsz⟩ := resize_ok t t' h
  obtain ⟨hocc, _⟩ := hI
  have hcap : capacity t + 12 ≤ capacity t' := by
    have := capGap t.mIndex_ (by omega)
    unfold capacity
    rw [hmi]
    exact this
  exact ⟨by omega, by omega⟩

theorem insert_inv (t t' : HashTable) (p : Nat × Nat) (hI : Inv t)
    (h : insert t p = Except.ok t') : Inv t' := by
  unfold insert at h
  by_cases hc : 2 * capacity t ≤ 5 * size t
  · rw [if_pos hc] at h
    cases hr : resize t with
    | error e =>
      rw [hr] at h
      exact Except.noConfusion h
    | ok t1 =>
      rw [hr] at h
      have h' : insertPlace t1 p = Except.ok t' := h
      obtain ⟨hsz, hmi⟩ := insertPlace_ok t1 p t' h'
      obtain ⟨hmi1, hlen1, hsz1⟩ := resize_ok t t1 hr
      have hcap : capacity t + 12 ≤ capacity t1 := by
        have := capGap t.mIndex_ (by omega)
        unfold capacity
        rw [hmi1]
        exact this
      have hcap' : capacity t' = capacity t1 := capacity_mIndex t1 t' hmi
      refine ⟨by have := hI.1; omega, ?_⟩
      rw [hmi, hmi1]
      omega
  · rw [if_neg hc] at h
    have h' : insertPlace t p = Except.ok t' := h
    obtain ⟨hsz, hmi⟩ := insertPlace_ok t p t' h'
    have hcap' : capacity t' = capacity t := capacity_mIndex t t' hmi
    refine ⟨by omega, by rw [hmi]; exact hI.2⟩

theorem step_inv (t t' : HashTable) (op : Op) (hI : Inv t)
    (h : step t op = Except.ok t') : Inv t' := by
  cases op with
  | ins k v => exact insert_inv t t' (k, v) hI h
  | rem k =>
    obtain rfl := Except.ok.inj h
    obtain ⟨hsz, hmi⟩ := remove_fields t k
    have hcap' : capacity (remove t k) = capacity t := capacity_mIndex t _ hmi
    exact ⟨by have := hI.1; omega, by rw [hmi]; exact hI.2⟩
  | fnd k =>
    obtain rfl := Except.ok.inj h
    exact hI
  | acc k =>
    have h' : (at' t k).map (fun _ => t) = Except.ok t' := h
    cases ha : at' t k with
    | error e => rw [ha] at h'; exact Except.noConfusion h'
    | ok v =>
      rw [ha] at h'
      have h'' : Except.ok t = Except.ok t' := h'
      obtain rfl := Except.ok.inj h''
      exact hI
  | res => exact resize_inv t t' hI h

theorem run_inv : ∀ (ops : List Op) (t t' : HashTable), Inv t →
    run t ops = Except.ok t' → Inv t' := by
  intro ops
  induction ops with
  | nil =>
    intro t t' hI h
    obtain rfl := Except.ok.inj h
    exact hI
  | cons op ops ih =>
    intro t t' hI h
    unfold run at h
    cases hs : step t op with
    | error e => rw [hs] at h; exact Except.noConfusion h
    | ok t1 =>
      rw [hs] at h
      exact ih t1 t' (step_inv t t1 op hI hs) h

theorem htInit_inv (alpha : ℚ) (hashF : Nat → Nat) : Inv (htInit alpha hashF) := by
  have h1 : size (htInit alpha hashF) = 0 := rfl
  have h2 : capacity (htInit alpha hashF) = 11 := rfl
  have h3 : (htInit alpha hashF).mIndex_ = 0 := rfl
  exact ⟨by omega, by rw [h3]; decide⟩

/-- C4 (amended, proved): for every table constructed with any threshold
argument and primary hash, and every sequence of public operations that
completes without an exception, the state between operations satisfies
`5 * size ≤ 2 * capacity + 4`, i.e. the occupancy ratio stays below
`0.4 + 1/capacity` — it can exceed the 0.4 threshold (see the
counterexample), but by less than one slot's worth, and only until the
next insert call triggers the resize. -/
theorem C4_amended_occupancy_bound (alpha : ℚ) (hashF : Nat → Nat)
    (ops : List Op) (t : HashTable)
    (h : run (htInit alpha hashF) ops = Except.ok t) :
    5 * size t ≤ 2 * capacity t + 4 :=
  (run_inv ops (htInit alpha hashF) t (htInit_inv alpha hashF) h).1

/-- Witness for C4 (amended) on the empty run from a freshly constructed
table. -/
theorem C4_witness :
    5 * size (htInit (2 / 5) (fun n => n)) ≤
      2 * capacity (htInit (2 / 5) (fun n => n)) + 4 :=
  C4_amended_occupancy_bound (2 / 5) (fun n => n) [] (htInit (2 / 5) (fun n => n)) rfl

/-- C5 (amended, proved): the constructor discards its `resizeAlpha`
argument entirely (tables built with different thresholds are equal), and
`insert` performs a resize before placing the new entry exactly when the
pre-insert state satisfies `5 * size ≥ 2 * capacity` — occupancy ratio at
or above the fixed threshold 0.4 — observable as `mIndex_` advancing by
one; otherwise the capacity index is unchanged. -/
theorem C5_amended_resize_decision :
    (∀ (a b : ℚ) (f : Nat → Nat), htInit a f = htInit b f) ∧
    (∀ (t : HashTable) (p : Nat × Nat),
      (insert t p).map HashTable.mIndex_ =
        (insert t p).map
          (fun _ => if 2 * capacity t ≤ 5 * size t then t.mIndex_ + 1 else t.mIndex_)) := by
  refine ⟨fun a b f => rfl, fun t p => ?_⟩
  unfold insert
  by_cases hc : 2 * capacity t ≤ 5 * size t
  · rw [if_pos hc]
    cases hr : resize t with
    | error e => rfl
    | ok t1 =>
      have hmi : t1.mIndex_ = t.mIndex_ + 1 := (resize_ok t t1 hr).1
      show (insertPlace t1 p).map HashTable.mIndex_ =
        (insertPlace t1 p).map
          (fun _ => if 2 * capacity t ≤ 5 * size t then t.mIndex_ + 1 else t.mIndex_)
      simp only [if_pos hc]
      unfold insertPlace
      split
      · rfl
      · split
        · simp [Except.map, hmi]
        · simp [Except.map, hmi]
  · rw [if_neg hc]
    show (insertPlace t p).map HashTable.mIndex_ =
      (insertPlace t p).map
        (fun _ => if 2 * capacity t ≤ 5 * size t then t.mIndex_ + 1 else t.mIndex_)
    simp only [if_neg hc]
    unfold insertPlace
    split
    · rfl
    · split
      · simp [Except.map]
      · simp [Except.map]

/-- C9 (confirmed): `at` throws `KeyNotFound` exactly when `find` reports
absent (a null result — `find` itself returns an `Option` and never
throws), and on a present key `at` returns exactly the value component of
the pair `find` locates. -/
theorem C9_at_find_agreement (t : HashTable) (key : Nat) :
    (at' t key = Except.error HTError.keyNotFound ↔ find t key = none) ∧
    (∀ it, find t key = some it → at' t key = Except.ok it.2) := by
  constructor
  · rcases h : find t key with _ | it <;> simp [at', h]
  · intro it h
    simp [at', h]

/-- Witness for C9 at a concrete table and key: `find tC9 1` locates the
pair (1, 10), and `at` returns 10. -/
theorem C9_witness : at' tC9 1 = Except.ok 10 :=
  (C9_at_find_agreement tC9 1).2 (1, 10) (by decide)

end HW6
